import Mathlib

/-!
Shallow embedding of the bolt playbook-execution engine
(github.com/eugenetaranov/bolt), covering the parts the specification
claims talk about:

* the dynamic value model (`GoVal`) standing for Go's `any` as it flows
  through the engine (YAML scalars, lists, `map[string]any`,
  `map[string]string`),
* the variable resolver and templating code (`vars.go` in package
  executor: `interpolateParams`, `interpolateValue`, `interpolateString`,
  `resolveVariable`, `lookupVariable`, `applyFilter`),
* the truthiness function `isTruthy` (executor.go),
* the raw-task parser `parseRawTask` and `Task.Validate`
  (internal/playbook),
* the role variable merger `MergeRoleVars` (internal/playbook/roles.go),
* the orchestrator pieces `runSingleTask`, `runTaskLoop`, `runHandlers`
  and `Executor.Run` (internal/executor/executor.go).

Go maps are modelled as association lists with map-style get/set/delete
(Go maps keep one binding per key; iteration order, where the source
iterates a map, is irrelevant to every statement proved here and is fixed
to list order).  Go `int` is modelled as `Int`.  External collaborators
(connectors, the module registry, module `Run` implementations and the
wall clock) are modelled as an oracle (`World`) recording the invocation
trace, exactly as the orchestrator observes them.
-/

namespace Bolt

/-- Dynamic Go value (`any`) as it occurs in the engine: YAML null, bool,
string, `int`, `int64`, `float64`, `[]any`, `map[string]any`,
`map[string]string` (the `env` map), and a catch-all for any other
dynamic type.  The `float64` payload is carried but its `fmt` rendering
is not modelled (no claim depends on it). -/
inductive GoVal where
| vnull : GoVal
| vbool : Bool → GoVal
| vstr : String → GoVal
| vint : Int → GoVal
| vint64 : Int → GoVal
| vfloat : Rat → GoVal
| vlist : List GoVal → GoVal
| vmap : List (String × GoVal) → GoVal
| vstrmap : List (String × String) → GoVal
| vother : GoVal

/-- Lookup in an association-list map (Go `m[k]` with comma-ok). -/
def aget {α : Type} : List (String × α) → String → Option α
| [], _ => none
| (k', v) :: rest, k => if k' = k then some v else aget rest k

/-- Go map assignment `m[k] = v`: replace the binding if present, else add. -/
def aset {α : Type} : List (String × α) → String → α → List (String × α)
| [], k, v => [(k, v)]
| (k', v') :: rest, k, v =>
  if k' = k then (k, v) :: rest else (k', v') :: aset rest k v

/-- Go `delete(m, k)`. -/
def adel {α : Type} : List (String × α) → String → List (String × α)
| [], _ => []
| (k', v') :: rest, k =>
  if k' = k then adel rest k else (k', v') :: adel rest k

/-- Key-membership test (`_, ok := m[k]`). -/
def ahas {α : Type} (m : List (String × α)) (k : String) : Bool :=
  (aget m k).isSome

/-- Whitespace class of the regexp escape used by the template pattern
(RE2: tab, newline, form feed, carriage return, space). -/
def isRegexSpace (c : Char) : Bool :=
  c = ' ' || c = '\t' || c = '\n' || c = '\x0c' || c = '\r'

/-- Whitespace stripped by Go's strings.TrimSpace, restricted to the
ASCII range the engine's inputs use (adds vertical tab to the regexp
class). -/
def isGoSpace (c : Char) : Bool :=
  isRegexSpace c || c = '\x0b'

/-- Strip characters satisfying p from both ends of a character list. -/
def stripEnds (p : Char → Bool) (s : List Char) : List Char :=
  ((s.dropWhile p).reverse.dropWhile p).reverse

/-- Go strings.TrimSpace. -/
def goTrim (s : String) : String :=
  ⟨stripEnds isGoSpace s.data⟩

/-- Go strings.Contains on character lists (substring test). -/
def hasSub : List Char → List Char → Bool
| _, [] => true
| [], _ :: _ => false
| c :: cs, p => p.isPrefixOf (c :: cs) || hasSub cs p

/-- Rendering of an Int by fmt's default verb (decimal with leading
minus), which is what toString produces. -/
def intFormat (n : Int) : String := toString n

mutual

/-- Default value-to-string conversion, Go's fmt.Sprintf with the
default verb, on the value model: nil renders as the string between
angle brackets n-i-l, booleans as true/false, strings verbatim, ints in
decimal, lists as space-separated elements in square brackets, maps as
map[k:v ...] (fmt prints map keys in sorted order; association lists
standing for observed maps are taken in that order).  The float64 and
catch-all renderings are not modelled; no claim evaluates them. -/
def goFormat : GoVal → String
| .vnull => "<nil>"
| .vbool true => "true"
| .vbool false => "false"
| .vstr s => s
| .vint n => intFormat n
| .vint64 n => intFormat n
| .vfloat _ => "(float64 rendering not modelled)"
| .vlist xs => "[" ++ String.intercalate " " (goFormatList xs) ++ "]"
| .vmap m => "map[" ++ String.intercalate " " (goFormatEntries m) ++ "]"
| .vstrmap m =>
  "map[" ++ String.intercalate " " (m.map fun p => p.1 ++ ":" ++ p.2) ++ "]"
| .vother => "(non-modelled dynamic type)"

/-- Renders each element of a list value. -/
def goFormatList : List GoVal → List String
| [] => []
| x :: xs => goFormat x :: goFormatList xs

/-- Renders each entry of a map value as key:value. -/
def goFormatEntries : List (String × GoVal) → List String
| [] => []
| (k, v) :: m => (k ++ ":" ++ goFormat v) :: goFormatEntries m

end

/-- isTruthy from internal/executor/executor.go.  The numeric case in
the source reads `case int, int64, float64: return val != 0`; because
several types share the case, the switch variable keeps the interface
type, and the untyped constant 0 takes its default type int, so the
comparison is an interface comparison against an int zero: it can only
be true when the dynamic type is int, hence every int64 and float64
value (zero included) is truthy.  The repository's own test suite
records this (executor_test.go: the zero-float case is commented out as
a type comparison quirk).  A map[string]string value falls into the
default branch of the type switch (only map[string]any has a case), so
it is truthy even when empty. -/
def isTruthy : GoVal → Bool
| .vnull => false
| .vbool b => b
| .vstr s => s != "" && s != "false" && s != "False" && s != "no"
| .vint n => n != 0
| .vint64 _ => true
| .vfloat _ => true
| .vlist xs => !xs.isEmpty
| .vmap m => !m.isEmpty
| .vstrmap _ => true
| .vother => true

/-- Execution-time play state (executor.PlayContext), restricted to the
fields the resolver and orchestrator read and write: the merged variable
namespace, gathered facts, registered results, and the notified-handler
set (map[string]bool, modelled as a duplicate-free name list; only
membership is ever observed). -/
structure PlayCtx where
  vars : List (String × GoVal)
  facts : List (String × GoVal)
  registered : List (String × GoVal)
  notified : List String

/-- Dotted-path walk from lookupVariable (vars.go): step through nested
string-keyed maps; a missing key in a map[string]any gives an interface
nil (return nil), a missing key in a map[string]string gives the empty
string (the Go zero value), and hitting any non-map returns nil. -/
def walkPath : GoVal → List String → GoVal
| cur, [] => cur
| cur, part :: rest =>
  match cur with
  | .vmap m =>
    match aget m part with
    | none => .vnull
    | some .vnull => .vnull
    | some v => walkPath v rest
  | .vstrmap m => walkPath (.vstr ((aget m part).getD "")) rest
  | _ => .vnull

/-- Go strings.Split on the dot separator (keeps empty fields). -/
def splitDots : List Char → List (List Char)
| [] => [[]]
| c :: cs =>
  if c = '.' then [] :: splitDots cs
  else
    match splitDots cs with
    | [] => [[c]]
    | p :: ps => (c :: p) :: ps

/-- lookupVariable (vars.go): Registered by exact name, then Vars by
exact name, then — only when the name has a dot — a dotted-path walk
through Vars; otherwise nil. -/
def lookupVariable (ctx : PlayCtx) (name : String) : GoVal :=
  match aget ctx.registered name with
  | some v => v
  | none =>
    match aget ctx.vars name with
    | some v => v
    | none =>
      if hasSub name.data ['.'] then
        walkPath (.vmap ctx.vars) ((splitDots name.data).map fun l => (⟨l⟩ : String))
      else
        .vnull

/-- Go strings.Trim with cutset consisting of the single and double
quote characters. -/
def trimQuotes (s : String) : String :=
  ⟨stripEnds (fun c => c = '\'' || c = '"') s.data⟩

/-- Index of the last occurrence of a character (strings.LastIndex). -/
def lastIdxOf (s : List Char) (c : Char) : Option Nat :=
  match s.reverse.findIdx? (· = c) with
  | some j => some (s.length - 1 - j)
  | none => none

/-- Splits a filter segment into filter name and argument, as applyFilter
does: an opening parenthesis at a positive index starts the argument
part, which extends to the last closing parenthesis at a positive index
and is whitespace-trimmed and quote-stripped; otherwise the argument is
empty.  Byte indices coincide with character indices on the ASCII syntax
characters involved. -/
def splitFilter (filter : String) : String × String :=
  match filter.data.findIdx? (· = '(') with
  | some idx =>
    if idx > 0 then
      let fname := goTrim ⟨filter.data.take idx⟩
      let argPart := filter.data.drop (idx + 1)
      match lastIdxOf argPart ')' with
      | some endIdx =>
        if endIdx > 0 then
          (fname, trimQuotes (goTrim ⟨argPart.take endIdx⟩))
        else (fname, "")
      | none => (fname, "")
    else (filter, "")
  | none => (filter, "")

/-- Best-effort decimal scan modelling fmt.Sscanf with the decimal verb:
skip leading whitespace, optional sign, then the longest digit prefix;
anything unparsable leaves the result at zero.  No claim evaluates it. -/
def goSscanInt (s : String) : Int :=
  let t := s.data.dropWhile isGoSpace
  let (neg, t) :=
    match t with
    | '-' :: t' => (true, t')
    | '+' :: t' => (false, t')
    | _ => (false, t)
  let digits := t.takeWhile (·.isDigit)
  if digits.isEmpty then 0
  else
    let n : Nat := digits.foldl (fun acc c => acc * 10 + (c.toNat - 48)) 0
    if neg then -(n : Int) else (n : Int)

/-- Truncation of a rational toward zero (Go's int(float64) conversion). -/
def ratTrunc (q : Rat) : Int :=
  if 0 ≤ q then ⌊q⌋ else -⌊-q⌋

/-- applyFilter (vars.go).  The value is looked up first; the filter
segment is split into name and optional argument; unknown filter names
are a hard error.  Values of types a filter does not handle pass through
(or yield the documented zero/nil), exactly per the source's type
switches; note length/count has cases only for string, []any and
map[string]any, so a map[string]string counts as 0. -/
def applyFilter (ctx : PlayCtx) (varName filter : String) : Except String GoVal :=
  let val := lookupVariable ctx varName
  let (filterName, filterArg) := splitFilter filter
  match filterName with
  | "default" =>
    match val with
    | .vnull => .ok (.vstr filterArg)
    | .vstr "" => .ok (.vstr filterArg)
    | _ => .ok val
  | "lower" =>
    match val with
    | .vstr s => .ok (.vstr ⟨s.data.map Char.toLower⟩)
    | _ => .ok val
  | "upper" =>
    match val with
    | .vstr s => .ok (.vstr ⟨s.data.map Char.toUpper⟩)
    | _ => .ok val
  | "trim" =>
    match val with
    | .vstr s => .ok (.vstr (goTrim s))
    | _ => .ok val
  | "bool" => .ok (.vbool (isTruthy val))
  | "string" => .ok (.vstr (goFormat val))
  | "int" =>
    match val with
    | .vint n => .ok (.vint n)
    | .vint64 n => .ok (.vint n)
    | .vfloat q => .ok (.vint (ratTrunc q))
    | .vstr s => .ok (.vint (goSscanInt s))
    | _ => .ok (.vint 0)
  | "first" =>
    match val with
    | .vlist (x :: _) => .ok x
    | _ => .ok .vnull
  | "last" =>
    match val with
    | .vlist xs =>
      match xs.getLast? with
      | some x => .ok x
      | none => .ok .vnull
    | _ => .ok .vnull
  | "length" | "count" =>
    match val with
    | .vstr s => .ok (.vint s.utf8ByteSize)
    | .vlist xs => .ok (.vint xs.length)
    | .vmap m => .ok (.vint m.length)
    | _ => .ok (.vint 0)
  | "join" =>
    match val with
    | .vlist xs =>
      let sep := if filterArg = "" then "," else filterArg
      .ok (.vstr (String.intercalate sep (xs.map goFormat)))
    | _ => .ok val
  | _ => .error ("unknown filter: " ++ filterName)

/-- resolveVariable (vars.go): trim, then if a pipe occurs at a positive
index split into variable and filter segment, else a plain lookup (which
never errors; unresolved names are nil). -/
def resolveVariable (ctx : PlayCtx) (expr : String) : Except String GoVal :=
  let expr := goTrim expr
  match expr.data.findIdx? (· = '|') with
  | some idx =>
    if idx > 0 then
      applyFilter ctx (goTrim ⟨expr.data.take idx⟩) (goTrim ⟨expr.data.drop (idx + 1)⟩)
    else .ok (lookupVariable ctx expr)
  | none => .ok (lookupVariable ctx expr)

/-- One pass of varPattern.ReplaceAllStringFunc with the mixed-content
callback of interpolateString.  The pattern is open-brace pair,
optional whitespace, a lazy nonempty run of non-close-brace characters,
optional whitespace, close-brace pair.  Because neither the whitespace
class nor the inner character class contains a close brace, a match
starting at an open-brace pair extends over the maximal close-brace-free
run p that follows, and exists exactly when p is nonempty and is
immediately followed by a close-brace pair; the capture group is p with
surrounding pattern whitespace stripped, and the callback trims it again
(TrimSpace strips a superset of the pattern's whitespace class, so the
expression handed to resolveVariable is the TrimSpace of p).  On a
resolution error the callback returns the matched text unchanged; on
success the resolved value's default formatting is spliced in.  A failed
match attempt resumes scanning one character later, and scanning resumes
after the consumed match, as the regexp engine does. -/
def replAux (ctx : PlayCtx) : Nat → List Char → List Char
| 0, s => s
| fuel + 1, s =>
  match s with
  | '{' :: '{' :: t =>
    let p := t.takeWhile (· ≠ '}')
    match t.drop p.length with
    | '}' :: '}' :: rest =>
      if p.isEmpty then '{' :: replAux ctx fuel ('{' :: t)
      else
        match resolveVariable ctx (goTrim ⟨p⟩) with
        | .error _ => '{' :: '{' :: (p ++ '}' :: '}' :: replAux ctx fuel rest)
        | .ok v => (goFormat v).data ++ replAux ctx fuel rest
    | _ => '{' :: replAux ctx fuel ('{' :: t)
  | c :: cs => c :: replAux ctx fuel cs
  | [] => []

/-- The scanner at its natural fuel.  Every step of replAux consumes at
least one input character before recursing, so length-many units of fuel
are never exhausted (replFuel_ge proves fuel irrelevance beyond the
length); the fuel parameter only serves structural termination. -/
def replaceAllVars (ctx : PlayCtx) (s : List Char) : List Char :=
  replAux ctx s.length s

/-- interpolateString (vars.go).  Whole-string rule: when the trimmed
string starts with an open-brace pair, ends with a close-brace pair,
and the trimmed slice between them contains no open-brace pair, the
inner expression is resolved and the value returned natively (errors
propagate).  Otherwise every pattern occurrence is replaced best-effort
and the spliced string is returned (never an error). -/
def interpolateString (ctx : PlayCtx) (s : String) : Except String GoVal :=
  let trimmed := goTrim s
  let inner := goTrim ⟨(trimmed.data.drop 2).take (trimmed.data.length - 4)⟩
  if ['{', '{'].isPrefixOf trimmed.data && ['}', '}'].isSuffixOf trimmed.data
     && !hasSub inner.data ['{', '{'] then
    resolveVariable ctx inner
  else
    .ok (.vstr ⟨replaceAllVars ctx s.data⟩)

mutual

/-- interpolateValue (vars.go): strings are interpolated, lists and
string-keyed maps are interpolated element-wise (first error aborts),
everything else passes through unchanged (map[string]string included:
the type switch has no case for it). -/
def interpolateValue (ctx : PlayCtx) : GoVal → Except String GoVal
| .vstr s => interpolateString ctx s
| .vlist xs =>
  match interpolateList ctx xs with
  | .error e => .error e
  | .ok ys => .ok (.vlist ys)
| .vmap m =>
  match interpolateEntries ctx m with
  | .error e => .error e
  | .ok m' => .ok (.vmap m')
| v => .ok v

/-- Element-wise interpolation of a list value. -/
def interpolateList (ctx : PlayCtx) : List GoVal → Except String (List GoVal)
| [] => .ok []
| x :: xs =>
  match interpolateValue ctx x with
  | .error e => .error e
  | .ok y =>
    match interpolateList ctx xs with
    | .error e => .error e
    | .ok ys => .ok (y :: ys)

/-- Entry-wise interpolation of a map value. -/
def interpolateEntries (ctx : PlayCtx) :
    List (String × GoVal) → Except String (List (String × GoVal))
| [] => .ok []
| (k, v) :: m =>
  match interpolateValue ctx v with
  | .error e => .error e
  | .ok y =>
    match interpolateEntries ctx m with
    | .error e => .error e
    | .ok m' => .ok ((k, y) :: m')

end

/-- interpolateParams (vars.go): interpolates each parameter value,
wrapping an error with the parameter name.  The source iterates the Go
map in unspecified order; the result and the presence of an error do not
depend on that order, and the entry list order stands in for it. -/
def interpolateParams (ctx : PlayCtx) :
    List (String × GoVal) → Except String (List (String × GoVal))
| [] => .ok []
| (k, v) :: rest =>
  match interpolateValue ctx v with
  | .error e => .error ("parameter '" ++ k ++ "': " ++ e)
  | .ok y =>
    match interpolateParams ctx rest with
    | .error e => .error e
    | .ok rest' => .ok ((k, y) :: rest')

/-- Task (internal/playbook/types.go), with the fields the parser and
the orchestrator use.  Go ints are modelled as Int; the optional
per-task become flag is an Option. -/
structure Task where
  name : String := ""
  module : String := ""
  params : List (String × GoVal) := []
  rolePath : String := ""
  when : String := ""
  register : String := ""
  notify : List String := []
  loop : List GoVal := []
  loopVar : String := ""
  ignoreErrors : Bool := false
  retries : Int := 0
  delay : Int := 0
  become : Option Bool := none
  becomeUser : String := ""
  changedWhen : String := ""
  failedWhen : String := ""

/-- knownTaskFields (internal/playbook/parser.go): the reserved task
directives; any other key is a module key. -/
def reservedTaskFields : List String :=
  ["name", "when", "register", "notify", "loop", "with_items", "loop_var",
   "ignore_errors", "retries", "delay", "become", "become_user",
   "changed_when", "failed_when"]

/-- Go type assertion v.(string) on an optional raw field. -/
def strField (raw : List (String × GoVal)) (k : String) : Option String :=
  match aget raw k with
  | some (.vstr s) => some s
  | _ => none

/-- Go type assertion v.(bool) on an optional raw field. -/
def boolField (raw : List (String × GoVal)) (k : String) : Option Bool :=
  match aget raw k with
  | some (.vbool b) => some b
  | _ => none

/-- Go type assertion v.(int) on an optional raw field (the YAML decoder
produces int for integral scalars). -/
def intField (raw : List (String × GoVal)) (k : String) : Option Int :=
  match aget raw k with
  | some (.vint n) => some n
  | _ => none

/-- The notify directive: a single string or a list whose string items
are collected (non-string items are dropped), per parseRawTask. -/
def parseNotify : Option GoVal → List String
| some (.vstr s) => [s]
| some (.vlist xs) =>
  xs.filterMap fun x =>
    match x with
    | .vstr s => some s
    | _ => none
| _ => []

/-- The loop directive: the loop key wins over with_items when present
(even with a non-list value, which silently yields no loop), per
parseRawTask. -/
def parseLoop (raw : List (String × GoVal)) : List GoVal :=
  match aget raw "loop" with
  | some (.vlist xs) => xs
  | some _ => []
  | none =>
    match aget raw "with_items" with
    | some (.vlist xs) => xs
    | _ => []

/-- Param shapes of the module value in parseRawTask: a mapping is used
verbatim, a string or other scalar is stored under the raw-argument key,
nil yields empty params. -/
def paramsOf : GoVal → List (String × GoVal)
| .vmap pm => pm
| .vstr s => [("_raw", GoVal.vstr s)]
| .vnull => []
| other => [("_raw", other)]

/-- Module-key detection loop of parseRawTask: skip reserved keys; the
first other key becomes the module and its value the params; a second
other key (once a non-empty module is held) is the multiple-modules
error.  The source iterates the Go map in unspecified order; whether an
error occurs and, when exactly one module key exists, which key is
chosen do not depend on that order. -/
def findModule : List (String × GoVal) → String → List (String × GoVal) →
    Except String (String × List (String × GoVal))
| [], m, ps => .ok (m, ps)
| (k, v) :: rest, m, ps =>
  if reservedTaskFields.contains k then findModule rest m ps
  else if m ≠ "" then
    .error ("multiple modules specified: " ++ m ++ " and " ++ k)
  else
    findModule rest k (paramsOf v)

/-- Directive extraction of parseRawTask: each reserved field is read by
a Go type assertion, defaulting when absent or of the wrong type. -/
def taskOfRaw (raw : List (String × GoVal)) : Task := {
  name := (strField raw "name").getD ""
  when := (strField raw "when").getD ""
  register := (strField raw "register").getD ""
  loopVar := (strField raw "loop_var").getD ""
  ignoreErrors := (boolField raw "ignore_errors").getD false
  retries := (intField raw "retries").getD 0
  delay := (intField raw "delay").getD 0
  become := boolField raw "become"
  becomeUser := (strField raw "become_user").getD ""
  changedWhen := (strField raw "changed_when").getD ""
  failedWhen := (strField raw "failed_when").getD ""
  notify := parseNotify (aget raw "notify")
  loop := parseLoop raw }

/-- parseRawTask (internal/playbook/parser.go): extract the reserved
directives, then find the module key. -/
def parseRawTask (raw : List (String × GoVal)) : Except String Task :=
  match findModule raw "" [] with
  | .error e => .error e
  | .ok (m, ps) => .ok { taskOfRaw raw with module := m, params := ps }

/-- Task.Validate (internal/playbook/types.go): missing module, then
negative retries, then negative delay. -/
def taskValidate (t : Task) : Except String Unit :=
  if t.module = "" then .error "task has no module specified"
  else if t.retries < 0 then .error "retries cannot be negative"
  else if t.delay < 0 then .error "delay cannot be negative"
  else .ok ()

/-- A raw task mapping as the playbook loader treats it: parseRawTask
followed by Task.Validate (Play.Validate invokes the latter on every
parsed task before a playbook is produced). -/
def parseAndValidateTask (raw : List (String × GoVal)) : Except String Task :=
  match parseRawTask raw with
  | .error e => .error e
  | .ok t =>
    match taskValidate t with
    | .error e => .error e
    | .ok _ => .ok t

/-- Number of keys of a raw task mapping that are not reserved
directives (the candidate module keys). -/
def moduleKeyCount (raw : List (String × GoVal)) : Nat :=
  (raw.filter fun p => !reservedTaskFields.contains p.1).length

/-- Role (internal/playbook/types.go): only vars and defaults matter to
the merger; tasks/handlers/path are carried for completeness. -/
structure Role where
  name : String := ""
  path : String := ""
  tasks : List Task := []
  handlers : List Task := []
  vars : List (String × GoVal) := []
  defaults : List (String × GoVal) := []

/-- One Go insertion loop: every entry of m is assigned into base
(m's entries win).  Go iterates the map in unspecified order; with the
map invariant of unique keys the resulting map does not depend on the
order, and list order stands in for it. -/
def mapUnion (base m : List (String × GoVal)) : List (String × GoVal) :=
  m.foldl (fun acc p => aset acc p.1 p.2) base

/-- MergeRoleVars (internal/playbook/roles.go): all role defaults in
role order, then all role vars in role order, then play vars, each
layer inserted into the accumulated map. -/
def MergeRoleVars (roles : List Role) (playVars : List (String × GoVal)) :
    List (String × GoVal) :=
  let merged := roles.foldl (fun acc r => mapUnion acc r.defaults) []
  let merged := roles.foldl (fun acc r => mapUnion acc r.vars) merged
  mapUnion merged playVars

/-- The last map in the list that binds k, if any (later entries win,
matching repeated insertion). -/
def lastHit : List (List (String × GoVal)) → String → Option GoVal
| [], _ => none
| m :: ms, k =>
  match lastHit ms k with
  | some v => some v
  | none => aget m k

/-- Result of one module Run invocation (internal/module Result). -/
structure ModResult where
  changed : Bool
  message : String := ""
  data : List (String × GoVal) := []

/-- Transient task result (executor.TaskResult); the error of a failed
task travels in the Except wrapper. -/
structure TaskResult where
  status : String
  changed : Bool := false
  data : List (String × GoVal) := []

/-- Oracle for the external collaborators the orchestrator calls, plus
the observable trace: registry tells whether module.Get finds a module
name; outcome gives the result of the n-th module Run invocation of the
run (0-based, counted by calls) — the orchestrator treats Run as opaque,
so indexing outcomes by invocation number is a faithful abstraction;
sleeps records each inter-attempt delay (seconds) as it is performed. -/
structure World where
  registry : String → Bool
  outcome : Nat → Except String ModResult
  calls : Nat := 0
  sleeps : List Int := []

/-- Word splitter behind strings.Fields: maximal runs of non-space
characters (accumulator carries the current word reversed). -/
def goFieldsAux : List Char → List Char → List (List Char)
| acc, [] => if acc.isEmpty then [] else [acc.reverse]
| acc, c :: cs =>
  if isGoSpace c then
    if acc.isEmpty then goFieldsAux [] cs
    else acc.reverse :: goFieldsAux [] cs
  else goFieldsAux (c :: acc) cs

/-- Go strings.Fields. -/
def goFields (s : List Char) : List (List Char) :=
  goFieldsAux [] s

/-- Task.GetLoopVar (types.go): default item. -/
def getLoopVar (t : Task) : String :=
  if t.loopVar = "" then "item" else t.loopVar

/-- ExpandShorthand (parser.go): when the params hold a single raw
string, either apply the per-module default key (no equals sign in the
raw string) or split whitespace-separated key=value pairs, stripping
quotes from values; an equals sign at index zero drops the pair. -/
def expandShorthand (t : Task) : Task :=
  match aget t.params "_raw" with
  | some (.vstr raw) =>
    if !hasSub raw.data ['='] then
      match t.module with
      | "command" | "shell" => { t with params := [("cmd", GoVal.vstr raw)] }
      | "file" => { t with params := [("path", GoVal.vstr raw)] }
      | "copy" => { t with params := [("dest", GoVal.vstr raw)] }
      | _ => { t with params := [("name", GoVal.vstr raw)] }
    else
      let pairs := (goFields raw.data).foldl (fun acc part =>
        match part.findIdx? (· = '=') with
        | some idx =>
          if idx > 0 then
            aset acc ⟨part.take idx⟩ (GoVal.vstr (trimQuotes ⟨part.drop (idx + 1)⟩))
          else acc
        | none => acc) []
      { t with params := pairs }
  | _ => t

/-- Retry loop of runSingleTask: n remaining attempts (callers pass at
least one), att the 1-based attempt counter; every attempt after the
first sleeps the delay first, the loop stops at the first success, and
the last error survives. -/
def attemptLoop (delay : Int) : Nat → Nat → World → Except String ModResult × World
| 0, _, w => (.error "", w)
| n + 1, att, w =>
  let w1 := if 1 < att then { w with sleeps := w.sleeps ++ [delay] } else w
  let r := w1.outcome w1.calls
  let w2 := { w1 with calls := w1.calls + 1 }
  match r, n with
  | .ok res, _ => (.ok res, w2)
  | .error e, 0 => (.error e, w2)
  | .error _, m + 1 => attemptLoop delay (m + 1) (att + 1) w2

/-- runSingleTask (executor.go): expand shorthand, resolve the module,
interpolate params, short-circuit on dry run, then invoke the module up
to retries+1 times (at least once); on success store the registered
result under the register name in both Registered and Vars, add every
notified handler to the set when the module reported a change, and
derive the status. -/
def runSingleTask (dryRun : Bool) (t : Task) (ctx : PlayCtx) (w : World) :
    Except String TaskResult × PlayCtx × World :=
  let t := expandShorthand t
  if !w.registry t.module then
    (.error ("unknown module: " ++ t.module), ctx, w)
  else
    match interpolateParams ctx t.params with
    | .error e => (.error ("failed to interpolate parameters: " ++ e), ctx, w)
    | .ok _params =>
      if dryRun then (.ok { status := "skipped" }, ctx, w)
      else
        let ma : Int := if t.retries + 1 < 1 then 1 else t.retries + 1
        match attemptLoop t.delay ma.toNat 1 w with
        | (.error e, w') => (.error e, ctx, w')
        | (.ok res, w') =>
          let ctx :=
            if t.register ≠ "" then
              let entry := GoVal.vmap
                [("changed", .vbool res.changed), ("message", .vstr res.message),
                 ("data", .vmap res.data)]
              { ctx with registered := aset ctx.registered t.register entry,
                         vars := aset ctx.vars t.register entry }
            else ctx
          let ctx :=
            if res.changed && !t.notify.isEmpty then
              { ctx with notified := (t.notify.foldl
                  (fun ns h => if ns.contains h then ns else ns ++ [h]) ctx.notified) }
            else ctx
          (.ok { status := if res.changed then "changed" else "ok",
                 changed := res.changed, data := res.data }, ctx, w')

/-- Iteration of runTaskLoop (executor.go): before each iteration the
loop variable and loop_index are assigned into Vars; an iteration error
returns immediately — the delete statements after the loop are not
reached; after the last iteration both keys are deleted and the
aggregate status is changed exactly when some iteration changed. -/
def loopIter (dryRun : Bool) (t : Task) (loopVar : String) :
    List GoVal → Nat → Bool → PlayCtx → World →
    Except String TaskResult × PlayCtx × World
| [], _, anyChanged, ctx, w =>
  let ctx := { ctx with vars := adel (adel ctx.vars loopVar) "loop_index" }
  (.ok { status := if anyChanged then "changed" else "ok", changed := anyChanged },
   ctx, w)
| item :: rest, i, anyChanged, ctx, w =>
  let ctx := { ctx with vars := aset (aset ctx.vars loopVar item) "loop_index" (.vint i) }
  match runSingleTask dryRun t ctx w with
  | (.error e, ctx', w') => (.error e, ctx', w')
  | (.ok res, ctx', w') =>
    loopIter dryRun t loopVar rest (i + 1) (anyChanged || res.changed) ctx' w'

/-- runTaskLoop (executor.go). -/
def runTaskLoop (dryRun : Bool) (t : Task) (ctx : PlayCtx) (w : World) :
    Except String TaskResult × PlayCtx × World :=
  loopIter dryRun t (getLoopVar t) t.loop 0 false ctx w

/-- Handler iteration of runHandlers (executor.go): declared handlers in
declaration order, skipping the ones whose name is not in the notified
set; a handler failure aborts with a wrapped error.  The returned name
list records the runSingleTask invocations in order (the observable the
handler claims are about). -/
def handlersIter (dryRun : Bool) :
    List Task → PlayCtx → World → List String →
    Except String Unit × PlayCtx × World × List String
| [], ctx, w, executed => (.ok (), ctx, w, executed)
| h :: hs, ctx, w, executed =>
  if !ctx.notified.contains h.name then handlersIter dryRun hs ctx w executed
  else
    match runSingleTask dryRun h ctx w with
    | (.error e, ctx', w') =>
      (.error ("handler '" ++ h.name ++ "' failed: " ++ e), ctx', w',
       executed ++ [h.name])
    | (.ok _, ctx', w') => handlersIter dryRun hs ctx' w' (executed ++ [h.name])

/-- runHandlers (executor.go), with its empty-set early return. -/
def runHandlers (dryRun : Bool) (handlers : List Task) (ctx : PlayCtx) (w : World) :
    Except String Unit × PlayCtx × World × List String :=
  if ctx.notified.isEmpty then (.ok (), ctx, w, [])
  else handlersIter dryRun handlers ctx w []

/-- RunResult (executor.go) restricted to the success flag (the stats
pointer is threaded through the abstract play state below). -/
structure RunResult where
  success : Bool

/-- The play loop of Executor.Run: run plays in order; the first play
error flips success and breaks (remaining plays are never started); the
started counter records how many plays were entered.  runPlay is kept
abstract (its internals — connectors, facts, task iteration — do not
affect Run's contract), threading an abstract state that stands for the
stats and output. -/
def runLoop {α σ : Type} (runPlay : α → σ → Except String Unit × σ) :
    List α → σ → Nat → Bool × σ × Nat
| [], st, started => (true, st, started)
| p :: ps, st, started =>
  match runPlay p st with
  | (.error _, st') => (false, st', started + 1)
  | (.ok _, st') => runLoop runPlay ps st' (started + 1)

/-- Executor.Run (executor.go): iterate the plays, and return the result
with a nil error unconditionally — the only return statement pairs the
result with nil. -/
def executorRun {α σ : Type} (runPlay : α → σ → Except String Unit × σ)
    (plays : List α) (st : σ) : (RunResult × Option String) × σ × Nat :=
  let (succ, st', started) := runLoop runPlay plays st 0
  ((⟨succ⟩, none), st', started)

/-- Whether each play in sequence would succeed, threading the state
(entries after the first failure are what the plays would do had the
loop not broken; only the position of the first failure is used). -/
def playOutcomes {α σ : Type} (runPlay : α → σ → Except String Unit × σ) :
    List α → σ → List Bool
| [], _ => []
| p :: ps, st =>
  match runPlay p st with
  | (.error _, st') => false :: playOutcomes runPlay ps st'
  | (.ok _, st') => true :: playOutcomes runPlay ps st'

/-- First-defined option, used to phrase precedence results. -/
def ogetOr (a b : Option GoVal) : Option GoVal :=
  match a with
  | some v => some v
  | none => b

/-- A mixed-content template decomposed into alternating pieces: literal
text and delimited expressions (the expression text is what stands
between the brace pairs). -/
inductive Seg where
| lit : String → Seg
| expr : String → Seg

/-- The characters a segment contributes to the template source. -/
def segChars : Seg → List Char
| .lit l => l.data
| .expr e => '{' :: '{' :: (e.data ++ ['}', '}'])

/-- The template source assembled from its segments. -/
def tplChars (segs : List Seg) : List Char :=
  (segs.map segChars).flatten

/-- What mixed-content substitution produces for one segment: literal
text unchanged; an expression whose resolution errors is kept verbatim,
delimiters included; a resolving expression becomes the default
formatting of its value. -/
def outSeg (ctx : PlayCtx) : Seg → List Char
| .lit l => l.data
| .expr e =>
  match resolveVariable ctx (goTrim e) with
  | .error _ => '{' :: '{' :: (e.data ++ ['}', '}'])
  | .ok v => (goFormat v).data

/-- The spliced output of mixed-content substitution. -/
def outChars (ctx : PlayCtx) (segs : List Seg) : List Char :=
  (segs.map (outSeg ctx)).flatten

/-- Side conditions making a decomposition unambiguous for the scanner:
a literal contains no open-brace pair and does not end in an open brace
(which could fuse with a following delimiter), and an expression is
nonempty and free of close braces (a close brace would end the match
early). -/
def SegOK : Seg → Prop
| .lit l => hasSub l.data ['{', '{'] = false ∧ l.data.getLast? ≠ some '{'
| .expr e => e ≠ "" ∧ '}' ∉ e.data

/-- Play context fixture: a single integer variable named count. -/
def ctxCount : PlayCtx := ⟨[("count", .vint 42)], [], [], []⟩

/-- World fixture: module registry accepts everything; the first two
invocations fail, every later one succeeds without a change. -/
def wFlaky : World :=
  ⟨fun _ => true, fun n => if n < 2 then .error "transient" else .ok ⟨false, "", []⟩, 0, []⟩

/-- Task fixture for the retry scenario: two retries, no delay. -/
def tRetry : Task := { module := "command", retries := 2, delay := 0 }

/-- World fixture: every invocation fails. -/
def wBoom : World := ⟨fun _ => true, fun _ => .error "boom", 0, []⟩

/-- World fixture: every invocation succeeds and reports a change. -/
def wOk : World := ⟨fun _ => true, fun _ => .ok ⟨true, "", []⟩, 0, []⟩

/-- Task fixture: a one-item loop. -/
def tLoop : Task := { module := "command", loop := [.vstr "a"] }

/-- Task fixtures: two tasks that each notify handlers A and B. -/
def tN1 : Task := { module := "command", notify := ["A", "B"] }

/-- Second notifying task (same notify list, different module). -/
def tN2 : Task := { module := "shell", notify := ["A", "B"] }

/-- Handler fixtures A and B, declared in that order. -/
def hA : Task := { name := "A", module := "command" }

/-- Handler B. -/
def hB : Task := { name := "B", module := "command" }

/-- Play state after the two notifying tasks ran against wOk: both
changed, so NotifiedHandlers holds A and B (once each). -/
def afterTasks : PlayCtx :=
  (runSingleTask false tN2 (runSingleTask false tN1 ⟨[], [], [], []⟩ wOk).2.1
    (runSingleTask false tN1 ⟨[], [], [], []⟩ wOk).2.2).2.1

/-- Role fixture of the precedence scenario: defaults bind port to 80,
vars to 8080. -/
def rPort : Role := { defaults := [("port", .vint 80)], vars := [("port", .vint 8080)] }

/-- Play state like afterTasks but with an undeclared name zed also in
the notified set. -/
def ctxZ : PlayCtx := { afterTasks with notified := ["zed", "A"] }

/-!  Theorems.  Claim theorems carry the claim id in their doc comment;
everything else is a shared helper lemma. -/

/-- C7 counterexample: the claim says every numeric value is falsy
exactly when it is zero, but the code's interface comparison makes a
zero float64 and a zero int64 truthy. -/
theorem c7_zero_numeric_truthy_cx :
    isTruthy (GoVal.vfloat 0) = true ∧ isTruthy (GoVal.vint64 0) = true :=
  ⟨rfl, rfl⟩

/-- C7 (amended): truthiness returns false for nil; the value itself for
booleans; for strings, false exactly for the empty string and the three
literal spellings; for an int, false exactly at zero, while every int64
and float64 value (zero included) is truthy; for lists and
string-to-any maps, false exactly when empty; and true for a
string-to-string map (no matching type-switch case) and any other
type. -/
theorem c7_truthiness_spec :
    isTruthy GoVal.vnull = false
    ∧ (∀ b, isTruthy (GoVal.vbool b) = b)
    ∧ (∀ s, isTruthy (GoVal.vstr s) = false ↔
        s = "" ∨ s = "false" ∨ s = "False" ∨ s = "no")
    ∧ (∀ n : Int, isTruthy (GoVal.vint n) = false ↔ n = 0)
    ∧ (∀ n : Int, isTruthy (GoVal.vint64 n) = true)
    ∧ (∀ q : Rat, isTruthy (GoVal.vfloat q) = true)
    ∧ (∀ xs, isTruthy (GoVal.vlist xs) = false ↔ xs = [])
    ∧ (∀ m, isTruthy (GoVal.vmap m) = false ↔ m = [])
    ∧ (∀ m, isTruthy (GoVal.vstrmap m) = true)
    ∧ isTruthy GoVal.vother = true := by
  refine ⟨rfl, fun b => rfl, fun s => ?_, fun n => ?_, fun n => rfl, fun q => rfl,
    fun xs => ?_, fun m => ?_, fun m => rfl, rfl⟩
  · simp [isTruthy]
    tauto
  · simp [isTruthy]
  · simp [isTruthy, List.isEmpty_iff]
  · simp [isTruthy, List.isEmpty_iff]

/-- The play loop: if every play outcome is a success the loop returns
true having started them all; the first failure at index i returns false
having started i+1 plays. -/
theorem runLoop_go {α σ : Type} (runPlay : α → σ → Except String Unit × σ) :
    ∀ (plays : List α) (st : σ) (s0 : Nat),
      ((∀ b ∈ playOutcomes runPlay plays st, b = true) →
        (runLoop runPlay plays st s0).1 = true
        ∧ (runLoop runPlay plays st s0).2.2 = s0 + plays.length)
      ∧ (∀ pre post, playOutcomes runPlay plays st = pre ++ false :: post →
        (∀ b ∈ pre, b = true) →
        (runLoop runPlay plays st s0).1 = false
        ∧ (runLoop runPlay plays st s0).2.2 = s0 + pre.length + 1) := by
  intro plays
  induction plays with
  | nil =>
    intro st s0
    refine ⟨fun _ => ⟨rfl, by simp [runLoop]⟩, fun pre post hi _ => ?_⟩
    simp [playOutcomes] at hi
  | cons p ps ih =>
    intro st s0
    rcases hrp : runPlay p st with ⟨r, st'⟩
    cases r with
    | error e =>
      refine ⟨fun hall => ?_, fun pre post hi hpre => ?_⟩
      · exfalso
        have h0 := hall false
        simp [playOutcomes, hrp] at h0
      · have hpre0 : pre = [] := by
          cases pre with
          | nil => rfl
          | cons b pre' =>
            have hb : b = true := hpre b (by simp)
            have : (false : Bool) = b := by
              have := congrArg List.head? hi
              simpa [playOutcomes, hrp] using this
            rw [hb] at this
            exact absurd this (by simp)
        subst hpre0
        exact ⟨by simp [runLoop, hrp], by simp [runLoop, hrp]⟩
    | ok u =>
      refine ⟨fun hall => ?_, fun pre post hi hpre => ?_⟩
      · have hall' : ∀ b ∈ playOutcomes runPlay ps st', b = true := by
          intro b hb
          exact hall b (by simp [playOutcomes, hrp]; right; exact hb)
        have hr := (ih st' (s0 + 1)).1 hall'
        refine ⟨by simpa [runLoop, hrp] using hr.1, ?_⟩
        have h2 := hr.2
        simp [runLoop, hrp]
        omega
      · cases pre with
        | nil =>
          exfalso
          have := congrArg List.head? hi
          simp [playOutcomes, hrp] at this
        | cons b pre' =>
          have htail : playOutcomes runPlay ps st' = pre' ++ false :: post := by
            have := congrArg List.tail hi
            simpa [playOutcomes, hrp] using this
          have hr := (ih st' (s0 + 1)).2 pre' post htail
            (fun x hx => hpre x (by simp [hx]))
          refine ⟨by simpa [runLoop, hrp] using hr.1, ?_⟩
          have h2 := hr.2
          simp [runLoop, hrp]
          omega

/-- C9: Executor.Run pairs its result with a nil error unconditionally;
the success flag is true with all plays started when no play fails, and
false with exactly the plays up to and including the first failing one
started (the rest never run) otherwise. -/
theorem c9_run_nil_error {α σ : Type} (runPlay : α → σ → Except String Unit × σ)
    (plays : List α) (st : σ) :
    (executorRun runPlay plays st).1.2 = none
    ∧ ((∀ b ∈ playOutcomes runPlay plays st, b = true) →
        (executorRun runPlay plays st).1.1.success = true
        ∧ (executorRun runPlay plays st).2.2 = plays.length)
    ∧ (∀ pre post, playOutcomes runPlay plays st = pre ++ false :: post →
        (∀ b ∈ pre, b = true) →
        (executorRun runPlay plays st).1.1.success = false
        ∧ (executorRun runPlay plays st).2.2 = pre.length + 1) := by
  have hgo := runLoop_go runPlay plays st 0
  rcases hrl : runLoop runPlay plays st 0 with ⟨succ, st', started⟩
  rw [hrl] at hgo
  refine ⟨by simp [executorRun, hrl], fun hall => ?_, fun pre post hi hpre => ?_⟩
  · have h1 := hgo.1 hall
    simp only [executorRun, hrl]
    exact ⟨h1.1, by simpa using h1.2⟩
  · have h1 := hgo.2 pre post hi hpre
    simp only [executorRun, hrl]
    exact ⟨h1.1, by simpa using h1.2⟩

/-- A scan over keys that are all reserved keeps the module and params
it already holds. -/
theorem findModule_none (raw : List (String × GoVal)) (m : String)
    (ps : List (String × GoVal))
    (h : raw.filter (fun p => !reservedTaskFields.contains p.1) = []) :
    findModule raw m ps = .ok (m, ps) := by
  induction raw generalizing m ps with
  | nil => rfl
  | cons kv rest ih =>
    rcases kv with ⟨k, v⟩
    by_cases hk : reservedTaskFields.contains k
    · simp only [List.filter_cons, hk] at h
      simp only [findModule, hk, if_true]
      exact ih m ps (by simpa using h)
    · simp only [List.filter_cons, hk] at h
      simp at h

/-- With exactly one non-reserved key the scan picks it as the module
and derives the params from its value. -/
theorem findModule_single (raw : List (String × GoVal)) (k : String) (v : GoVal)
    (h : raw.filter (fun p => !reservedTaskFields.contains p.1) = [(k, v)]) :
    findModule raw "" [] = .ok (k, paramsOf v) := by
  induction raw with
  | nil => simp at h
  | cons kv rest ih =>
    rcases kv with ⟨k0, v0⟩
    by_cases hk : reservedTaskFields.contains k0
    · simp only [List.filter_cons, hk] at h
      simp only [findModule, hk, if_true]
      exact ih (by simpa using h)
    · simp only [List.filter_cons, hk] at h
      simp only [Bool.not_eq_true', Bool.not_true, if_true] at h
      have hh : (k0, v0) = (k, v) ∧ rest.filter (fun p => !reservedTaskFields.contains p.1) = [] := by
        constructor
        · have := congrArg List.head? h
          simpa using this
        · have := congrArg List.tail h
          simpa using this
      rcases hh with ⟨hkv, hrest⟩
      cases hkv
      simp only [findModule, hk, if_false]
      simpa using findModule_none rest k (paramsOf v) hrest

/-- With a non-empty module already held, any further non-reserved key
errors; with none held, two further non-reserved non-empty keys
error. -/
theorem findModule_multi (raw : List (String × GoVal))
    (hne : ∀ p ∈ raw, ¬reservedTaskFields.contains p.1 → p.1 ≠ "") :
    ∀ (m : String) (ps : List (String × GoVal)),
      (m ≠ "" ∧ 1 ≤ (raw.filter (fun p => !reservedTaskFields.contains p.1)).length
        ∨ 2 ≤ (raw.filter (fun p => !reservedTaskFields.contains p.1)).length) →
      ∃ e, findModule raw m ps = .error e := by
  induction raw with
  | nil => intro m ps h; simp at h
  | cons kv rest ih =>
    intro m ps h
    rcases kv with ⟨k, v⟩
    by_cases hk : reservedTaskFields.contains k
    · simp only [List.filter_cons, hk] at h
      simp only [findModule, hk, if_true]
      exact ih (fun p hp => hne p (by simp [hp])) m ps (by simpa using h)
    · have hkne : k ≠ "" := hne (k, v) (by simp) hk
      have hfc : ((k, v) :: rest).filter (fun p => !reservedTaskFields.contains p.1)
          = (k, v) :: rest.filter (fun p => !reservedTaskFields.contains p.1) := by
        simp only [List.filter_cons]
        rw [if_pos (by simpa using hk)]
      rw [hfc, List.length_cons] at h
      by_cases hm : m = ""
      · subst hm
        simp only [findModule]
        rw [if_neg hk, if_neg (by simp)]
        refine ih (fun p hp => hne p (by simp [hp])) k (paramsOf v) (Or.inl ⟨hkne, ?_⟩)
        rcases h with ⟨hf, _⟩ | h2
        · exact absurd rfl hf
        · omega
      · refine ⟨"multiple modules specified: " ++ m ++ " and " ++ k, ?_⟩
        simp only [findModule]
        rw [if_neg hk, if_pos hm]

/-- C4 counterexample: a raw mapping with exactly one non-reserved key
(copy) but a negative retries value still fails to load, refuting the
claimed biconditional. -/
theorem c4_negative_retries_cx :
    moduleKeyCount [("copy", GoVal.vstr "/tmp/x"), ("retries", GoVal.vint (-1))] = 1
    ∧ parseAndValidateTask [("copy", GoVal.vstr "/tmp/x"), ("retries", GoVal.vint (-1))]
      = .error "retries cannot be negative" :=
  ⟨rfl, rfl⟩

/-- C4 (amended): for a raw task mapping whose non-reserved keys are
non-empty strings, loading (parseRawTask then Task.Validate) fails when
the number of non-reserved keys is zero or at least two; with exactly
one non-reserved key it fails exactly when the retries or delay value is
negative, and otherwise succeeds with that key as the module name. -/
theorem c4_module_key_spec (raw : List (String × GoVal))
    (hne : ∀ p ∈ raw, ¬reservedTaskFields.contains p.1 → p.1 ≠ "") :
    (moduleKeyCount raw = 0 →
      parseAndValidateTask raw = .error "task has no module specified")
    ∧ (2 ≤ moduleKeyCount raw → ∃ e, parseAndValidateTask raw = .error e)
    ∧ (∀ k v, raw.filter (fun p => !reservedTaskFields.contains p.1) = [(k, v)] →
        0 ≤ (intField raw "retries").getD 0 → 0 ≤ (intField raw "delay").getD 0 →
        ∃ t, parseAndValidateTask raw = .ok t ∧ t.module = k) := by
  refine ⟨fun h0 => ?_, fun h2 => ?_, fun k v h1 hr hd => ?_⟩
  · have hf : raw.filter (fun p => !reservedTaskFields.contains p.1) = [] :=
      List.length_eq_zero.mp h0
    have hfm := findModule_none raw "" [] hf
    simp [parseAndValidateTask, parseRawTask, hfm, taskValidate]
  · obtain ⟨e, he⟩ := findModule_multi raw hne "" [] (Or.inr h2)
    exact ⟨e, by simp [parseAndValidateTask, parseRawTask, he]⟩
  · have hfm := findModule_single raw k v h1
    have hkne : k ≠ "" := by
      have hmem : (k, v) ∈ raw.filter (fun p => !reservedTaskFields.contains p.1) := by
        rw [h1]
        exact List.mem_singleton_self _
      rcases List.mem_filter.mp hmem with ⟨hmemraw, hpred⟩
      exact hne (k, v) hmemraw (by simpa using hpred)
    refine ⟨{ taskOfRaw raw with module := k, params := paramsOf v }, ?_, rfl⟩
    simp only [parseAndValidateTask, parseRawTask, hfm]
    have hrv : ¬((intField raw "retries").getD 0 < 0) := not_lt.mpr hr
    have hdv : ¬((intField raw "delay").getD 0 < 0) := not_lt.mpr hd
    simp [taskValidate, taskOfRaw, hkne, hrv, hdv]

/-- C4 witness: the amended claim applied to a concrete two-key mapping
(one directive, one module key). -/
theorem c4_module_key_spec_witness :
    ∃ t, parseAndValidateTask
        [("name", GoVal.vstr "t"), ("copy", GoVal.vmap [("dest", GoVal.vstr "/tmp")])]
      = .ok t ∧ t.module = "copy" :=
  (c4_module_key_spec
    [("name", GoVal.vstr "t"), ("copy", GoVal.vmap [("dest", GoVal.vstr "/tmp")])]
    (by decide)).2.2 "copy" (GoVal.vmap [("dest", GoVal.vstr "/tmp")]) rfl
    (by decide) (by decide)

/-- Absent keys look up to none. -/
theorem aget_eq_none {α : Type} (m : List (String × α)) (k : String)
    (h : k ∉ m.map Prod.fst) : aget m k = none := by
  induction m with
  | nil => rfl
  | cons p rest ih =>
    rcases p with ⟨k', v⟩
    simp only [List.map_cons, List.mem_cons] at h
    push_neg at h
    simp only [aget]
    rw [if_neg (fun hh => h.1 hh.symm)]
    exact ih h.2

/-- Assignment binds the assigned key. -/
theorem aget_aset_same {α : Type} (m : List (String × α)) (k : String) (v : α) :
    aget (aset m k v) k = some v := by
  induction m with
  | nil => simp [aset, aget]
  | cons p rest ih =>
    rcases p with ⟨k', v'⟩
    by_cases hk : k' = k
    · subst hk
      simp [aset, aget]
    · simp only [aset]
      rw [if_neg hk]
      simp only [aget]
      rw [if_neg hk]
      exact ih

/-- Assignment leaves other keys alone. -/
theorem aget_aset_ne {α : Type} (m : List (String × α)) (k k' : String) (v : α)
    (h : k' ≠ k) : aget (aset m k v) k' = aget m k' := by
  induction m with
  | nil =>
    simp only [aset, aget]
    rw [if_neg (fun hh => h hh.symm)]
  | cons p rest ih =>
    rcases p with ⟨k0, v0⟩
    by_cases hk : k0 = k
    · subst hk
      simp only [aset, if_pos rfl, aget]
      rw [if_neg (fun hh => h hh.symm), if_neg (fun hh => h hh.symm)]
    · simp only [aset]
      rw [if_neg hk]
      simp only [aget]
      by_cases hk' : k0 = k'
      · rw [if_pos hk', if_pos hk']
      · rw [if_neg hk', if_neg hk']
        exact ih

/-- Inserting every entry of a duplicate-free map into a base map gives
the entry's binding when present, else the base's. -/
theorem aget_mapUnion (base m : List (String × GoVal)) (k : String)
    (hm : (m.map Prod.fst).Nodup) :
    aget (mapUnion base m) k = ogetOr (aget m k) (aget base k) := by
  induction m generalizing base with
  | nil => rfl
  | cons p rest ih =>
    rcases p with ⟨k0, v0⟩
    simp only [List.map_cons, List.nodup_cons] at hm
    have hstep : mapUnion base ((k0, v0) :: rest) = mapUnion (aset base k0 v0) rest := rfl
    rw [hstep, ih _ hm.2]
    by_cases hk : k0 = k
    · subst hk
      have hrest : aget rest k0 = none := aget_eq_none rest k0 hm.1
      simp [aget, hrest, ogetOr, aget_aset_same]
    · simp only [aget]
      rw [if_neg hk, aget_aset_ne base k0 k v0 (fun hh => hk hh.symm)]

/-- Folding map insertion over a list of duplicate-free maps: the last
map that binds the key wins, else the initial map decides. -/
theorem aget_unionFold (ms : List (List (String × GoVal)))
    (init : List (String × GoVal)) (k : String)
    (h : ∀ m ∈ ms, (m.map Prod.fst).Nodup) :
    aget (ms.foldl mapUnion init) k = ogetOr (lastHit ms k) (aget init k) := by
  induction ms generalizing init with
  | nil => rfl
  | cons m ms ih =>
    have hstep : (m :: ms).foldl mapUnion init = ms.foldl mapUnion (mapUnion init m) := rfl
    rw [hstep, ih (mapUnion init m) (fun x hx => h x (by simp [hx]))]
    rw [aget_mapUnion init m k (h m (by simp))]
    simp only [lastHit]
    cases lastHit ms k with
    | none => rfl
    | some v => rfl

/-- The trailing position of ogetOr drops a none. -/
theorem ogetOr_none (a : Option GoVal) : ogetOr a none = a := by
  cases a <;> rfl

/-- C8: the merged variable map resolves every key to the
highest-precedence source that binds it — play vars over role vars over
role defaults, and among the roles the last one that binds the key wins
(maps carry the Go-map invariant of duplicate-free keys). -/
theorem c8_merge_precedence (roles : List Role)
    (playVars : List (String × GoVal)) (k : String)
    (hd : ∀ r ∈ roles, (r.defaults.map Prod.fst).Nodup)
    (hv : ∀ r ∈ roles, (r.vars.map Prod.fst).Nodup)
    (hp : (playVars.map Prod.fst).Nodup) :
    aget (MergeRoleVars roles playVars) k =
      ogetOr (aget playVars k)
        (ogetOr (lastHit (roles.map Role.vars) k)
          (lastHit (roles.map Role.defaults) k)) := by
  have hdefs : roles.foldl (fun acc r => mapUnion acc r.defaults) [] =
      (roles.map Role.defaults).foldl mapUnion [] := (List.foldl_map _ _ _ _).symm
  have hvars : ∀ init, roles.foldl (fun acc r => mapUnion acc r.vars) init =
      (roles.map Role.vars).foldl mapUnion init := fun init => (List.foldl_map _ _ _ _).symm
  simp only [MergeRoleVars, hdefs, hvars]
  rw [aget_mapUnion _ playVars k hp]
  rw [aget_unionFold (roles.map Role.vars) _ k (by
    intro m hm
    rcases List.mem_map.mp hm with ⟨r, hr, rfl⟩
    exact hv r hr)]
  rw [aget_unionFold (roles.map Role.defaults) [] k (by
    intro m hm
    rcases List.mem_map.mp hm with ⟨r, hr, rfl⟩
    exact hd r hr)]
  have : aget ([] : List (String × GoVal)) k = none := rfl
  rw [this, ogetOr_none]

/-- C8 witness: the precedence theorem at the concrete port scenario —
role defaults 80 and role vars 8080 resolve to 8080 under empty play
vars, and a play var 9000 takes over. -/
theorem c8_merge_precedence_witness :
    aget (MergeRoleVars [rPort] []) "port" = some (GoVal.vint 8080)
    ∧ aget (MergeRoleVars [rPort] [("port", GoVal.vint 9000)]) "port"
      = some (GoVal.vint 9000) :=
  ⟨(c8_merge_precedence [rPort] [] "port" (by decide) (by decide) (by decide)).trans rfl,
   (c8_merge_precedence [rPort] [("port", GoVal.vint 9000)] "port"
      (by decide) (by decide) (by decide)).trans rfl⟩

/-- Shorthand expansion only rewrites params; every directive field
survives. -/
theorem expandShorthand_preserves (t : Task) :
    (expandShorthand t).module = t.module ∧ (expandShorthand t).retries = t.retries
    ∧ (expandShorthand t).delay = t.delay ∧ (expandShorthand t).register = t.register
    ∧ (expandShorthand t).notify = t.notify := by
  refine ⟨?_, ?_, ?_, ?_, ?_⟩ <;>
    (unfold expandShorthand; repeat' split) <;> rfl

/-- Retry loop, stopping case: with k failures and then a success within
the attempt budget, the loop returns the success having invoked the
module k+1 more times and slept before every attempt after the overall
first. -/
theorem attemptLoop_success (delay : Int) :
    ∀ (k att n : Nat) (w : World) (res : ModResult),
      1 ≤ att → k < n →
      (∀ j < k, ∃ e, w.outcome (w.calls + j) = .error e) →
      w.outcome (w.calls + k) = .ok res →
      attemptLoop delay n att w =
        (.ok res, { w with calls := w.calls + (k + 1),
                           sleeps := w.sleeps ++
                             List.replicate (if att = 1 then k else k + 1) delay }) := by
  intro k
  induction k with
  | zero =>
    intro att n w res hatt hn hfail hok
    obtain ⟨n', rfl⟩ : ∃ n', n = n' + 1 := ⟨n - 1, by omega⟩
    rcases w with ⟨wr, wo, wc, ws⟩
    simp only [Nat.add_zero] at hok
    by_cases h1 : att = 1
    · subst h1
      cases n' <;> simp [attemptLoop, hok]
    · have h2 : 1 < att := by omega
      cases n' <;> simp [attemptLoop, hok, h2, h1]
  | succ k ih =>
    intro att n w res hatt hn hfail hok
    obtain ⟨n', rfl⟩ : ∃ n', n = n' + 1 := ⟨n - 1, by omega⟩
    obtain ⟨e0, he0⟩ := hfail 0 (by omega)
    simp only [Nat.add_zero] at he0
    obtain ⟨m, rfl⟩ : ∃ m, n' = m + 1 := ⟨n' - 1, by omega⟩
    rcases w with ⟨wr, wo, wc, ws⟩
    have hshift : ∀ (c : Nat), wc + 1 + c = wc + (c + 1) := by omega
    by_cases h1 : att = 1
    · subst h1
      have hstep : attemptLoop delay (m + 1 + 1) 1 ⟨wr, wo, wc, ws⟩ =
          attemptLoop delay (m + 1) 2 ⟨wr, wo, wc + 1, ws⟩ := by
        simp [attemptLoop, he0]
      rw [hstep]
      rw [ih 2 (m + 1) ⟨wr, wo, wc + 1, ws⟩ res (by omega) (by omega)
        (fun j hj => by
          obtain ⟨e, he⟩ := hfail (j + 1) (by omega)
          exact ⟨e, by simpa [hshift] using he⟩)
        (by simpa [hshift] using hok)]
      simp only [Prod.mk.injEq, World.mk.injEq, true_and]
      refine ⟨by omega, ?_⟩
      norm_num
    · have h2 : 1 < att := by omega
      have hstep : attemptLoop delay (m + 1 + 1) att ⟨wr, wo, wc, ws⟩ =
          attemptLoop delay (m + 1) (att + 1) ⟨wr, wo, wc + 1, ws ++ [delay]⟩ := by
        simp [attemptLoop, he0, h2]
      rw [hstep]
      rw [ih (att + 1) (m + 1) ⟨wr, wo, wc + 1, ws ++ [delay]⟩ res (by omega) (by omega)
        (fun j hj => by
          obtain ⟨e, he⟩ := hfail (j + 1) (by omega)
          exact ⟨e, by simpa [hshift] using he⟩)
        (by simpa [hshift] using hok)]
      simp only [Prod.mk.injEq, World.mk.injEq, true_and]
      refine ⟨by omega, ?_⟩
      rw [if_neg (by omega), if_neg h1]
      simp [List.replicate_succ]

/-- Retry loop, exhaustion case: when every attempt in the budget fails
the loop returns the last attempt's error, having invoked the module n
more times. -/
theorem attemptLoop_allfail (delay : Int) :
    ∀ (n att : Nat) (w : World) (err : Nat → String),
      1 ≤ n → 1 ≤ att →
      (∀ j < n, w.outcome (w.calls + j) = .error (err j)) →
      attemptLoop delay n att w =
        (.error (err (n - 1)), { w with calls := w.calls + n,
                                        sleeps := w.sleeps ++
                                          List.replicate (if att = 1 then n - 1 else n) delay }) := by
  intro n
  induction n with
  | zero => intro att w err h0; omega
  | succ m ih =>
    intro att w err _ hatt hfail
    rcases w with ⟨wr, wo, wc, ws⟩
    have he0 := hfail 0 (by omega)
    simp only [Nat.add_zero] at he0
    have hshift : ∀ (c : Nat), wc + 1 + c = wc + (c + 1) := by omega
    cases m with
    | zero =>
      by_cases h1 : att = 1
      · subst h1
        simp [attemptLoop, he0]
      · have h2 : 1 < att := by omega
        simp [attemptLoop, he0, h1, h2]
    | succ m' =>
      by_cases h1 : att = 1
      · subst h1
        have hstep : attemptLoop delay (m' + 1 + 1) 1 ⟨wr, wo, wc, ws⟩ =
            attemptLoop delay (m' + 1) 2 ⟨wr, wo, wc + 1, ws⟩ := by
          simp [attemptLoop, he0]
        rw [hstep]
        rw [ih 2 ⟨wr, wo, wc + 1, ws⟩ (fun j => err (j + 1)) (by omega) (by omega)
          (fun j hj => by
            have he := hfail (j + 1) (by omega)
            simpa [hshift] using he)]
        simp only [Prod.mk.injEq, World.mk.injEq, true_and]
        refine ⟨by norm_num, by omega, ?_⟩
        norm_num
      · have h2 : 1 < att := by omega
        have hstep : attemptLoop delay (m' + 1 + 1) att ⟨wr, wo, wc, ws⟩ =
            attemptLoop delay (m' + 1) (att + 1) ⟨wr, wo, wc + 1, ws ++ [delay]⟩ := by
          simp [attemptLoop, he0, h2]
        rw [hstep]
        rw [ih (att + 1) ⟨wr, wo, wc + 1, ws ++ [delay]⟩ (fun j => err (j + 1)) (by omega) (by omega)
          (fun j hj => by
            have he := hfail (j + 1) (by omega)
            simpa [hshift] using he)]
        simp only [Prod.mk.injEq, World.mk.injEq, true_and]
        refine ⟨by norm_num, by omega, ?_⟩
        rw [if_neg (by omega), if_neg h1]
        simp [List.replicate_succ]


/-- Under a known module, successful interpolation and a live run, the
task's result and final world are exactly those of the retry loop at
budget retries+1 starting at attempt one. -/
theorem runSingleTask_proj (t : Task) (ctx : PlayCtx) (w : World)
    (ps : List (String × GoVal))
    (hreg : w.registry (expandShorthand t).module = true)
    (hint : interpolateParams ctx (expandShorthand t).params = .ok ps)
    (r : Nat) (hr : t.retries = (r : Int)) :
    (runSingleTask false t ctx w).1 =
      (match (attemptLoop t.delay (r + 1) 1 w).1 with
       | .error e => .error e
       | .ok res => .ok { status := if res.changed then "changed" else "ok",
                          changed := res.changed, data := res.data })
    ∧ (runSingleTask false t ctx w).2.2 = (attemptLoop t.delay (r + 1) 1 w).2 := by
  obtain ⟨hm, hret, hdel, hregi, hnot⟩ := expandShorthand_preserves t
  have hma : (if (expandShorthand t).retries + 1 < 1 then 1
      else (expandShorthand t).retries + 1).toNat = r + 1 := by
    rw [hret, hr, if_neg (by omega)]
    omega
  simp only [runSingleTask, hreg, hint, Bool.not_true, Bool.false_eq_true, if_false, hma, hdel]
  rcases hat : attemptLoop t.delay (r + 1) 1 w with ⟨res, w'⟩
  cases res <;> simp

/-- C5: with retries r and module failures on the first k attempts
followed by a success (k within budget), the task succeeds with the
module invoked exactly k+1 times and exactly k inter-attempt delays of
delay seconds; when all r+1 attempts fail, the last error is the task's
error after r+1 invocations and r delays. -/
theorem c5_retry_semantics (t : Task) (ctx : PlayCtx) (w : World) (r : Nat)
    (hreg : w.registry (expandShorthand t).module = true)
    (hint : ∃ ps, interpolateParams ctx (expandShorthand t).params = .ok ps)
    (hr : t.retries = (r : Int)) :
    (∀ k res, k ≤ r →
      (∀ j < k, ∃ e, w.outcome (w.calls + j) = .error e) →
      w.outcome (w.calls + k) = .ok res →
      (runSingleTask false t ctx w).1 =
        .ok { status := if res.changed then "changed" else "ok",
              changed := res.changed, data := res.data }
      ∧ (runSingleTask false t ctx w).2.2.calls = w.calls + (k + 1)
      ∧ (runSingleTask false t ctx w).2.2.sleeps = w.sleeps ++ List.replicate k t.delay)
    ∧ (∀ err : Nat → String,
      (∀ j < r + 1, w.outcome (w.calls + j) = .error (err j)) →
      (runSingleTask false t ctx w).1 = .error (err r)
      ∧ (runSingleTask false t ctx w).2.2.calls = w.calls + (r + 1)
      ∧ (runSingleTask false t ctx w).2.2.sleeps = w.sleeps ++ List.replicate r t.delay) := by
  obtain ⟨ps, hint⟩ := hint
  obtain ⟨h1, h2⟩ := runSingleTask_proj t ctx w ps hreg hint r hr
  constructor
  · intro k res hk hfail hok
    have hal := attemptLoop_success t.delay k 1 (r + 1) w res (by omega) (by omega) hfail hok
    rw [hal] at h1 h2
    exact ⟨h1, by simp [h2], by simp [h2]⟩
  · intro err hfail
    have hal := attemptLoop_allfail t.delay (r + 1) 1 w err (by omega) (by omega) hfail
    rw [hal] at h1 h2
    simp only [Nat.add_sub_cancel] at h1
    exact ⟨h1, by simp [h2], by simp [h2]⟩


/-- C5 witness: retries=2, delay=0, failures on the first two attempts,
success on the third — task succeeds with 3 invocations and 2 delays. -/
theorem c5_retry_semantics_witness :
    (runSingleTask false tRetry ⟨[], [], [], []⟩ wFlaky).1 = .ok { status := "ok" }
    ∧ (runSingleTask false tRetry ⟨[], [], [], []⟩ wFlaky).2.2.calls = 3
    ∧ (runSingleTask false tRetry ⟨[], [], [], []⟩ wFlaky).2.2.sleeps = [0, 0] := by
  have h := (c5_retry_semantics tRetry ⟨[], [], [], []⟩ wFlaky 2 rfl ⟨[], rfl⟩ rfl).1 2
    ⟨false, "", []⟩ (by omega)
    (fun j hj => ⟨"transient", by
      simp only [wFlaky]
      rw [if_pos (by omega)]⟩)
    (by simp [wFlaky])
  refine ⟨h.1.trans rfl, h.2.1.trans rfl, h.2.2.trans rfl⟩

/-- Key membership survives any assignment. -/
theorem ahas_aset {α : Type} (m : List (String × α)) (k k' : String) (v : α)
    (h : ahas m k = true) : ahas (aset m k' v) k = true := by
  by_cases hk : k = k'
  · subst hk
    simp [ahas, aget_aset_same m k v]
  · rw [ahas, aget_aset_ne m k' k v hk]
    exact h

/-- Deletion removes the deleted key. -/
theorem aget_adel_same {α : Type} (m : List (String × α)) (k : String) :
    aget (adel m k) k = none := by
  induction m with
  | nil => rfl
  | cons p rest ih =>
    rcases p with ⟨k', v'⟩
    by_cases hk : k' = k
    · subst hk; simp [adel, ih]
    · simp only [adel]
      rw [if_neg hk]
      simp only [aget]
      rw [if_neg hk]
      exact ih

/-- Deletion leaves other keys alone. -/
theorem aget_adel_ne {α : Type} (m : List (String × α)) (k k' : String)
    (h : k' ≠ k) : aget (adel m k) k' = aget m k' := by
  induction m with
  | nil => rfl
  | cons p rest ih =>
    rcases p with ⟨k0, v0⟩
    by_cases hk : k0 = k
    · subst hk
      have h1 : adel ((k0, v0) :: rest) k0 = adel rest k0 := by simp [adel]
      have h2 : aget ((k0, v0) :: rest) k' = aget rest k' := by
        simp only [aget]
        rw [if_neg (fun hh => h hh.symm)]
      rw [h1, ih, h2]
    · simp only [adel]
      rw [if_neg hk]
      simp only [aget]
      by_cases hk' : k0 = k'
      · rw [if_pos hk', if_pos hk']
      · rw [if_neg hk', if_neg hk']
        exact ih

/-- runSingleTask never removes a Vars key: the only Vars write is
the register assignment. -/
theorem runSingleTask_vars_mono (d : Bool) (t : Task) (ctx : PlayCtx) (w : World)
    (k : String) (h : ahas ctx.vars k = true) :
    ahas (runSingleTask d t ctx w).2.1.vars k = true := by
  unfold runSingleTask
  cases hreg : w.registry (expandShorthand t).module with
  | false => simpa [hreg] using h
  | true =>
    cases hint : interpolateParams ctx (expandShorthand t).params with
    | error e => simpa [hreg, hint] using h
    | ok ps =>
      cases d with
      | true => simpa [hreg, hint] using h
      | false =>
        simp only [hreg, hint, Bool.not_true, Bool.false_eq_true, if_false]
        split
        · exact h
        · repeat' split
          all_goals simp_all [ahas_aset]

/-- Loop iteration: a run that ends in the base case has deleted the
loop variable and index; a run that ends in an iteration error has both
still assigned (the deletes after the loop are skipped). -/
theorem loopIter_keys (d : Bool) (t : Task) (lv : String) :
    ∀ (l : List GoVal) (i : Nat) (b : Bool) (ctx : PlayCtx) (w : World),
      ((∃ tr, (loopIter d t lv l i b ctx w).1 = .ok tr) →
        ahas (loopIter d t lv l i b ctx w).2.1.vars lv = false
        ∧ ahas (loopIter d t lv l i b ctx w).2.1.vars "loop_index" = false)
      ∧ ((∃ e, (loopIter d t lv l i b ctx w).1 = .error e) →
        ahas (loopIter d t lv l i b ctx w).2.1.vars lv = true
        ∧ ahas (loopIter d t lv l i b ctx w).2.1.vars "loop_index" = true) := by
  intro l
  induction l with
  | nil =>
    intro i b ctx w
    constructor
    · intro _
      constructor
      · by_cases hlv : lv = "loop_index"
        · subst hlv
          simp [loopIter, ahas, aget_adel_same]
        · simp [loopIter, ahas, aget_adel_ne _ _ _ hlv, aget_adel_same]
      · simp [loopIter, ahas, aget_adel_same]
    · rintro ⟨e, he⟩
      simp [loopIter] at he
  | cons item rest ih =>
    intro i b ctx w
    rcases hrs : runSingleTask d t
        { ctx with vars := aset (aset ctx.vars lv item) "loop_index" (.vint i) } w
      with ⟨r, ctx', w'⟩
    have hset1 : ahas (aset (aset ctx.vars lv item) "loop_index" (GoVal.vint i)) lv = true := by
      apply ahas_aset
      simp [ahas, aget_aset_same]
    have hset2 : ahas (aset (aset ctx.vars lv item) "loop_index" (GoVal.vint i)) "loop_index" = true := by
      simp [ahas, aget_aset_same]
    cases r with
    | error e =>
      have hred : loopIter d t lv (item :: rest) i b ctx w = (.error e, ctx', w') := by
        simp [loopIter, hrs]
      rw [hred]
      constructor
      · rintro ⟨tr, htr⟩
        simp at htr
      · intro _
        have hm1 := runSingleTask_vars_mono d t
          { ctx with vars := aset (aset ctx.vars lv item) "loop_index" (.vint i) } w lv hset1
        have hm2 := runSingleTask_vars_mono d t
          { ctx with vars := aset (aset ctx.vars lv item) "loop_index" (.vint i) } w "loop_index" hset2
        rw [hrs] at hm1 hm2
        exact ⟨hm1, hm2⟩
    | ok res =>
      have hred : loopIter d t lv (item :: rest) i b ctx w =
          loopIter d t lv rest (i + 1) (b || res.changed) ctx' w' := by
        simp [loopIter, hrs]
      rw [hred]
      exact ih (i + 1) (b || res.changed) ctx' w'

/-- C1 (amended): after a loop task completes successfully, Vars
contains neither the loop variable nor loop_index; after a loop task
fails, both keys remain in Vars, because the error return precedes the
delete statements. -/
theorem c1_loop_cleanup (d : Bool) (t : Task) (ctx : PlayCtx) (w : World) :
    ((∃ tr, (runTaskLoop d t ctx w).1 = .ok tr) →
      ahas (runTaskLoop d t ctx w).2.1.vars (getLoopVar t) = false
      ∧ ahas (runTaskLoop d t ctx w).2.1.vars "loop_index" = false)
    ∧ ((∃ e, (runTaskLoop d t ctx w).1 = .error e) →
      ahas (runTaskLoop d t ctx w).2.1.vars (getLoopVar t) = true
      ∧ ahas (runTaskLoop d t ctx w).2.1.vars "loop_index" = true) :=
  loopIter_keys d t (getLoopVar t) t.loop 0 false ctx w

/-- C1 counterexample: a one-item loop whose module invocation fails
leaves both the item key and loop_index in Vars, refuting the claimed
cleanup on the error path. -/
theorem c1_loop_error_keys_cx :
    (runTaskLoop false tLoop ⟨[], [], [], []⟩ wBoom).1 = .error "boom"
    ∧ ahas (runTaskLoop false tLoop ⟨[], [], [], []⟩ wBoom).2.1.vars "item" = true
    ∧ ahas (runTaskLoop false tLoop ⟨[], [], [], []⟩ wBoom).2.1.vars "loop_index" = true :=
  ⟨rfl, rfl, rfl⟩

/-- C1 witness: the amended cleanup theorem applied to a concrete
successful one-item loop. -/
theorem c1_loop_cleanup_witness :
    ahas (runTaskLoop false tLoop ⟨[], [], [], []⟩ wOk).2.1.vars "item" = false
    ∧ ahas (runTaskLoop false tLoop ⟨[], [], [], []⟩ wOk).2.1.vars "loop_index" = false := by
  have h := (c1_loop_cleanup false tLoop ⟨[], [], [], []⟩ wOk).1 ⟨_, rfl⟩
  exact ⟨h.1, h.2⟩

/-- A task without a notify list leaves the notified-handler set
unchanged. -/
theorem runSingleTask_notified_const (d : Bool) (t : Task) (ctx : PlayCtx) (w : World)
    (hn : t.notify = []) :
    (runSingleTask d t ctx w).2.1.notified = ctx.notified := by
  have hnot : (expandShorthand t).notify = [] := by
    rw [(expandShorthand_preserves t).2.2.2.2, hn]
  unfold runSingleTask
  cases hreg : w.registry (expandShorthand t).module with
  | false => simp [hreg]
  | true =>
    cases hint : interpolateParams ctx (expandShorthand t).params with
    | error e => simp [hreg, hint]
    | ok ps =>
      cases d with
      | true => simp [hreg, hint]
      | false =>
        simp only [hreg, hint, Bool.not_true, Bool.false_eq_true, if_false]
        split
        · rfl
        · repeat' split
          all_goals simp_all [hnot]

/-- Handler iteration that finishes without error executes exactly the
declared handlers whose names are in the notified set, in declaration
order, each once. -/
theorem handlersIter_exec (d : Bool) :
    ∀ (hs : List Task) (ctx : PlayCtx) (w : World) (acc : List String),
      (∀ h ∈ hs, h.notify = []) →
      (handlersIter d hs ctx w acc).1 = .ok () →
      (handlersIter d hs ctx w acc).2.2.2 =
        acc ++ (hs.filter (fun h => ctx.notified.contains h.name)).map Task.name := by
  intro hs
  induction hs with
  | nil => intro ctx w acc _ _; simp [handlersIter]
  | cons h rest ih =>
    intro ctx w acc hnn hok
    by_cases hc : ctx.notified.contains h.name
    · have hcm : h.name ∈ ctx.notified := by simpa using hc
      rcases hrs : runSingleTask d h ctx w with ⟨r, ctx', w'⟩
      cases r with
      | error e =>
        exfalso
        simp [handlersIter, hcm, hrs] at hok
      | ok u =>
        have hred : handlersIter d (h :: rest) ctx w acc =
            handlersIter d rest ctx' w' (acc ++ [h.name]) := by
          simp [handlersIter, hcm, hrs]
        rw [hred] at hok ⊢
        have hctx' : ctx'.notified = ctx.notified := by
          have := runSingleTask_notified_const d h ctx w (hnn h (by simp))
          rw [hrs] at this
          exact this
        have := ih ctx' w' (acc ++ [h.name]) (fun x hx => hnn x (by simp [hx])) hok
        rw [this, hctx']
        simp [List.filter_cons, hcm]
    · have hcm : ¬ h.name ∈ ctx.notified := by simpa using hc
      have hred : handlersIter d (h :: rest) ctx w acc =
          handlersIter d rest ctx w acc := by
        simp [handlersIter, hcm]
      rw [hred] at hok ⊢
      rw [ih ctx w acc (fun x hx => hnn x (by simp [hx])) hok]
      simp [List.filter_cons, hcm]

/-- C6: handler execution iterates the declared handlers in declaration
order, runs exactly those whose names are in the notified set and each
of them once, regardless of how many notifications put a name there
(handlers here carry no notify directives of their own). -/
theorem c6_handlers_order_dedup (d : Bool) (hs : List Task) (ctx : PlayCtx) (w : World)
    (hnn : ∀ h ∈ hs, h.notify = [])
    (hok : (runHandlers d hs ctx w).1 = .ok ()) :
    (runHandlers d hs ctx w).2.2.2 =
      (hs.filter (fun h => ctx.notified.contains h.name)).map Task.name := by
  by_cases hempty : ctx.notified.isEmpty
  · have hnil : ctx.notified = [] := List.isEmpty_iff.mp hempty
    simp [runHandlers, hempty, hnil]
  · unfold runHandlers at hok ⊢
    rw [if_neg (by simpa using hempty)] at hok ⊢
    exact handlersIter_exec d hs ctx w [] hnn hok

/-- C6 witness: handlers A then B declared in that order, two changed
tasks each notifying both — exactly one execution of A followed by one
of B. -/
theorem c6_handlers_order_dedup_witness :
    (runHandlers false [hA, hB] afterTasks wOk).2.2.2 = ["A", "B"] := by
  have h := c6_handlers_order_dedup false [hA, hB] afterTasks wOk
    (by decide) rfl
  exact h.trans rfl

/-- Handler iteration only ever runs declared handlers whose names are
notified, and any error it returns wraps such a handler's name. -/
theorem handlersIter_scope (d : Bool) :
    ∀ (hs : List Task) (ctx : PlayCtx) (w : World) (acc : List String),
      (∀ h ∈ hs, h.notify = []) →
      (∀ n, n ∈ (handlersIter d hs ctx w acc).2.2.2 →
        n ∈ acc ∨ (n ∈ hs.map Task.name ∧ ctx.notified.contains n = true))
      ∧ (∀ e, (handlersIter d hs ctx w acc).1 = .error e →
          ∃ h ∈ hs, ctx.notified.contains h.name = true
            ∧ ∃ e0, e = "handler '" ++ h.name ++ "' failed: " ++ e0) := by
  intro hs
  induction hs with
  | nil =>
    intro ctx w acc _
    constructor
    · intro n hn
      simp [handlersIter] at hn
      exact Or.inl hn
    · intro e he
      simp [handlersIter] at he
  | cons h rest ih =>
    intro ctx w acc hnn
    by_cases hc : ctx.notified.contains h.name
    · have hcm : h.name ∈ ctx.notified := by simpa using hc
      rcases hrs : runSingleTask d h ctx w with ⟨r, ctx', w'⟩
      cases r with
      | error e =>
        have hred : handlersIter d (h :: rest) ctx w acc =
            (.error ("handler '" ++ h.name ++ "' failed: " ++ e), ctx', w', acc ++ [h.name]) := by
          simp [handlersIter, hcm, hrs]
        rw [hred]
        constructor
        · intro n hn
          simp at hn
          rcases hn with hn | hn
          · exact Or.inl hn
          · exact Or.inr ⟨by simp [hn], by rw [hn]; exact hc⟩
        · intro e' he'
          simp at he'
          exact ⟨h, by simp, hc, e, he'.symm⟩
      | ok u =>
        have hred : handlersIter d (h :: rest) ctx w acc =
            handlersIter d rest ctx' w' (acc ++ [h.name]) := by
          simp [handlersIter, hcm, hrs]
        rw [hred]
        have hctx' : ctx'.notified = ctx.notified := by
          have := runSingleTask_notified_const d h ctx w (hnn h (by simp))
          rw [hrs] at this
          exact this
        have ihr := ih ctx' w' (acc ++ [h.name]) (fun x hx => hnn x (by simp [hx]))
        constructor
        · intro n hn
          rcases ihr.1 n hn with hacc | ⟨hname, hcont⟩
          · rcases List.mem_append.mp hacc with h1 | h1
            · exact Or.inl h1
            · simp at h1
              exact Or.inr ⟨by simp [h1], by rw [h1]; exact hc⟩
          · rw [hctx'] at hcont
            exact Or.inr ⟨by simp [hname], hcont⟩
        · intro e' he'
          obtain ⟨hh, hhmem, hhcont, e0, he0⟩ := ihr.2 e' he'
          rw [hctx'] at hhcont
          exact ⟨hh, by simp [hhmem], hhcont, e0, he0⟩
    · have hcm : ¬ h.name ∈ ctx.notified := by simpa using hc
      have hred : handlersIter d (h :: rest) ctx w acc =
          handlersIter d rest ctx w acc := by
        simp [handlersIter, hcm]
      rw [hred]
      have ihr := ih ctx w acc (fun x hx => hnn x (by simp [hx]))
      constructor
      · intro n hn
        rcases ihr.1 n hn with hacc | ⟨hname, hcont⟩
        · exact Or.inl hacc
        · exact Or.inr ⟨by simp [hname], hcont⟩
      · intro e' he'
        obtain ⟨hh, hhmem, hhcont, e0, he0⟩ := ihr.2 e' he'
        exact ⟨hh, by simp [hhmem], hhcont, e0, he0⟩

/-- C10: notified names that match no declared handler are silently
ignored — every executed handler is declared and notified, and any
error of handler execution is on account of a declared, notified
handler (handlers here carry no notify directives of their own). -/
theorem c10_undeclared_ignored (d : Bool) (hs : List Task) (ctx : PlayCtx) (w : World)
    (hnn : ∀ h ∈ hs, h.notify = []) :
    (∀ n, n ∈ (runHandlers d hs ctx w).2.2.2 →
      n ∈ hs.map Task.name ∧ ctx.notified.contains n = true)
    ∧ (∀ e, (runHandlers d hs ctx w).1 = .error e →
      ∃ h ∈ hs, ctx.notified.contains h.name = true
        ∧ ∃ e0, e = "handler '" ++ h.name ++ "' failed: " ++ e0) := by
  by_cases hempty : ctx.notified.isEmpty
  · constructor
    · intro n hn
      simp [runHandlers, hempty] at hn
    · intro e he
      simp [runHandlers, hempty] at he
  · unfold runHandlers
    rw [if_neg (by simpa using hempty)]
    have hsc := handlersIter_scope d hs ctx w [] hnn
    constructor
    · intro n hn
      rcases hsc.1 n hn with hacc | hgood
      · simp at hacc
      · exact hgood
    · exact hsc.2

/-- C10 witness: with the undeclared name zed in the notified set, no
task is run for zed. -/
theorem c10_undeclared_ignored_witness :
    ¬ "zed" ∈ (runHandlers false [hA] ctxZ wOk).2.2.2 := by
  intro hmem
  have h := (c10_undeclared_ignored false [hA] ctxZ wOk
    (by intro x hx; simp_all [hA])).1 "zed" hmem
  simp [hA] at h

/-- C3: when the trimmed parameter string is one brace-delimited block
with no nested open-brace pair inside, interpolation returns the
resolved value natively; concretely an integer count of 42 comes back
as the integer 42, while the mixed string yields the text n=42. -/
theorem c3_whole_string_native :
    (∀ (ctx : PlayCtx) (s : String) (v : GoVal),
      ['{', '{'].isPrefixOf (goTrim s).data = true →
      ['}', '}'].isSuffixOf (goTrim s).data = true →
      hasSub (goTrim ⟨((goTrim s).data.drop 2).take ((goTrim s).data.length - 4)⟩).data
        ['{', '{'] = false →
      resolveVariable ctx
        (goTrim ⟨((goTrim s).data.drop 2).take ((goTrim s).data.length - 4)⟩) = .ok v →
      interpolateString ctx s = .ok v)
    ∧ interpolateString ctxCount "{{ count }}" = .ok (.vint 42)
    ∧ interpolateString ctxCount "n={{ count }}" = .ok (.vstr "n=42") := by
  refine ⟨?_, rfl, rfl⟩
  intro ctx s v hpre hsuf hnn hres
  unfold interpolateString
  simp only [hpre, hsuf, hnn]
  simpa using hres

/-- C3 witness: the whole-string rule applied to a concrete padded
template over the count variable. -/
theorem c3_whole_string_native_witness :
    interpolateString ctxCount "  {{ count }}  " = .ok (.vint 42) :=
  c3_whole_string_native.1 ctxCount "  {{ count }}  " (.vint 42) rfl rfl rfl rfl

-- C2 scanner stepping lemma experiments

/-- A failed match attempt consumes one character. -/
theorem replAux_cons_default (ctx : PlayCtx) (f : Nat) (c : Char) (z : List Char)
    (h : ¬(c = '{' ∧ z.head? = some '{')) :
    replAux ctx (f + 1) (c :: z) = c :: replAux ctx f z := by
  by_cases hc : c = '{'
  · subst hc
    cases z with
    | nil => simp [replAux]
    | cons z0 zs =>
      have hz : z0 ≠ '{' := by
        intro hh
        exact h ⟨rfl, by simp [hh]⟩
      conv_lhs => unfold replAux
      split
      · rename_i heq
        exfalso
        injection heq with h1 h2
        injection h2 with h3 h4
        exact hz h3
      · rename_i heq
        injection heq with h1 h2
        subst h1
        rw [h2]
      · rename_i heq
        simp at heq
  · cases z with
    | nil =>
      conv_lhs => unfold replAux
      split
      · rename_i heq
        exfalso
        injection heq with h1 h2
        exact hc h1
      · rename_i heq
        injection heq with h1 h2
        subst h1
        rw [h2]
      · rename_i heq
        simp at heq
    | cons z0 zs =>
      conv_lhs => unfold replAux
      split
      · rename_i heq
        exfalso
        injection heq with h1 h2
        exact hc h1
      · rename_i heq
        injection heq with h1 h2
        subst h1
        rw [h2]
      · rename_i heq
        simp at heq

/-- The scan for the inner expression stops at the first close brace. -/
theorem takeWhile_closefree (e v : List Char) (he : ∀ c ∈ e, ¬ c = '}') :
    (e ++ '}' :: v).takeWhile (fun x => decide (x ≠ '}')) = e := by
  induction e with
  | nil => simp [List.takeWhile]
  | cons c cs ih =>
    have hc : ¬ c = '}' := he c (by simp)
    simp only [List.cons_append, List.takeWhile_cons]
    rw [if_pos (by simpa using hc)]
    rw [ih (fun x hx => he x (by simp [hx]))]

/-- One unfolding of the scanner at an open-brace pair. -/
theorem replAux_brace (ctx : PlayCtx) (f : Nat) (t : List Char) :
    replAux ctx (f + 1) ('{' :: '{' :: t) =
      (let p := t.takeWhile (· ≠ '}')
       match t.drop p.length with
       | '}' :: '}' :: rest =>
         if p.isEmpty then '{' :: replAux ctx f ('{' :: t)
         else
           match resolveVariable ctx (goTrim ⟨p⟩) with
           | .error _ => '{' :: '{' :: (p ++ '}' :: '}' :: replAux ctx f rest)
           | .ok v => (goFormat v).data ++ replAux ctx f rest
       | _ => '{' :: replAux ctx f ('{' :: t)) := rfl

/-- A whole delimited expression is consumed in one step: resolution
errors keep the matched text verbatim, successes splice the formatted
value. -/
theorem replAux_expr (ctx : PlayCtx) (e u : List Char) (f : Nat)
    (hne : e ≠ []) (hnb : ∀ c ∈ e, ¬ c = '}') :
    replAux ctx (f + 1) ('{' :: '{' :: (e ++ '}' :: '}' :: u)) =
      (match resolveVariable ctx (goTrim ⟨e⟩) with
       | .error _ => '{' :: '{' :: (e ++ '}' :: '}' :: replAux ctx f u)
       | .ok v => (goFormat v).data ++ replAux ctx f u) := by
  rw [replAux_brace]
  simp only [takeWhile_closefree e ('}' :: u) hnb]
  rw [List.drop_left]
  have hie : e.isEmpty = false := by
    cases e with
    | nil => exact absurd rfl hne
    | cons a b => rfl
  simp only [hie, Bool.false_eq_true, if_false]

/-- Literal text without an open-brace pair (and not fusing with what
follows) passes through the scanner unchanged. -/
theorem replAux_lit (ctx : PlayCtx) :
    ∀ (l u : List Char) (f : Nat),
      hasSub l ['{', '{'] = false →
      (l.getLast? = some '{' → u.head? ≠ some '{') →
      replAux ctx (l.length + f) (l ++ u) = l ++ replAux ctx f u := by
  intro l
  induction l with
  | nil => intro u f _ _; simp
  | cons c cs ih =>
    intro u f hsub hlast
    have hnd : ¬(c = '{' ∧ (cs ++ u).head? = some '{') := by
      rintro ⟨rfl, hhead⟩
      cases cs with
      | nil =>
        simp at hhead
        exact hlast (by simp) hhead
      | cons c2 cs' =>
        simp at hhead
        rw [hhead] at hsub
        simp [hasSub, List.isPrefixOf] at hsub
    have hl : (c :: cs).length + f = (cs.length + f) + 1 := by simp; omega
    rw [hl, List.cons_append, replAux_cons_default ctx (cs.length + f) c (cs ++ u) hnd]
    rw [ih u f ?hs ?hl2]
    · rfl
    case hs =>
      cases hps : hasSub cs ['{', '{'] with
      | false => rfl
      | true =>
        exfalso
        simp [hasSub, hps] at hsub
    case hl2 =>
      intro hgl
      apply hlast
      cases cs with
      | nil => simp at hgl
      | cons c2 cs' => rw [List.getLast?_cons_cons]; exact hgl

/-- The scanner leaves an empty input alone at any fuel. -/
theorem replAux_nil (ctx : PlayCtx) (f : Nat) : replAux ctx f [] = [] := by
  cases f <;> rfl

/-- The scanner over a well-formed decomposition produces exactly the
per-segment outputs, at any sufficient fuel. -/
theorem replAux_splice (ctx : PlayCtx) :
    ∀ (segs : List Seg) (f : Nat),
      (∀ sg ∈ segs, SegOK sg) → (tplChars segs).length ≤ f →
      replAux ctx f (tplChars segs) = outChars ctx segs := by
  intro segs
  induction segs with
  | nil =>
    intro f _ _
    simp [tplChars, outChars, replAux_nil]
  | cons sg rest ih =>
    intro f hok hf
    have hokr : ∀ x ∈ rest, SegOK x := fun x hx => hok x (by simp [hx])
    cases sg with
    | lit l =>
      have hsg : SegOK (.lit l) := hok _ (by simp)
      obtain ⟨hsub, hlast⟩ := hsg
      have htpl : tplChars (Seg.lit l :: rest) = l.data ++ tplChars rest := by
        simp [tplChars, segChars]
      rw [htpl] at hf ⊢
      have hfsplit : f = l.data.length + (f - l.data.length) := by
        simp only [List.length_append] at hf
        omega
      rw [hfsplit, replAux_lit ctx l.data (tplChars rest) (f - l.data.length) hsub
        (fun hgl => absurd hgl hlast)]
      rw [ih (f - l.data.length) hokr (by simp only [List.length_append] at hf; omega)]
      simp [outChars, outSeg]
    | expr e =>
      have hsg : SegOK (.expr e) := hok _ (by simp)
      obtain ⟨hne, hnb⟩ := hsg
      have htpl : tplChars (Seg.expr e :: rest) =
          '{' :: '{' :: (e.data ++ '}' :: '}' :: tplChars rest) := by
        simp [tplChars, segChars]
      rw [htpl] at hf ⊢
      obtain ⟨f', rfl⟩ : ∃ f', f = f' + 1 := by
        refine ⟨f - 1, ?_⟩
        simp at hf
        omega
      have hne' : e.data ≠ [] := by
        intro hh
        exact hne (by cases e; simp_all)
      have hnb' : ∀ c ∈ e.data, ¬ c = '}' := by
        intro c hc hcc
        subst hcc
        exact hnb hc
      rw [replAux_expr ctx e.data (tplChars rest) f' hne' hnb']
      have hlen : (tplChars rest).length ≤ f' := by
        simp at hf
        omega
      have hout : outChars ctx (Seg.expr e :: rest) = outSeg ctx (.expr e) ++ outChars ctx rest := by
        simp [outChars]
      rw [hout]
      have hstr : (⟨e.data⟩ : String) = e := rfl
      rw [hstr]
      cases hres : resolveVariable ctx (goTrim e) with
      | error err =>
        simp only [outSeg, hres]
        rw [ih f' hokr hlen]
        simp
      | ok v =>
        simp only [outSeg, hres]
        rw [ih f' hokr hlen]

/-- Mixed-content substitution over a well-formed decomposition. -/
theorem replaceAllVars_splice (ctx : PlayCtx) (segs : List Seg)
    (hok : ∀ sg ∈ segs, SegOK sg) :
    replaceAllVars ctx (tplChars segs) = outChars ctx segs :=
  replAux_splice ctx segs (tplChars segs).length hok le_rfl

/-- C2 counterexample: an expression that resolves to nil (an unknown
variable) is not left verbatim — its nil value is spliced in as the
default formatting of nil. -/
theorem c2_unresolved_not_verbatim_cx :
    interpolateString ⟨[], [], [], []⟩ "x={{ missing }}" = .ok (.vstr "x=<nil>")
    ∧ ("x=<nil>" : String) ≠ "x={{ missing }}" :=
  ⟨rfl, by decide⟩

/-- C2 (amended): for an input that is not a whole-string template
block, every delimited expression is resolved independently; an
occurrence whose resolution errors (an unknown filter) is left verbatim,
while every resolving occurrence — including an unresolved variable,
which resolves to nil without error — is replaced by the default
formatting of its value; the surrounding literal text is unchanged and
the interpolation of the string never fails. -/
theorem c2_mixed_content_spec (ctx : PlayCtx) (segs : List Seg)
    (hok : ∀ sg ∈ segs, SegOK sg)
    (hmix : (['{', '{'].isPrefixOf (goTrim ⟨tplChars segs⟩).data
        && ['}', '}'].isSuffixOf (goTrim ⟨tplChars segs⟩).data
        && !hasSub (goTrim ⟨((goTrim ⟨tplChars segs⟩).data.drop 2).take
             ((goTrim ⟨tplChars segs⟩).data.length - 4)⟩).data ['{', '{']) = false) :
    interpolateString ctx ⟨tplChars segs⟩ = .ok (.vstr ⟨outChars ctx segs⟩) := by
  unfold interpolateString
  simp only [hmix, Bool.false_eq_true, if_false]
  rw [replaceAllVars_splice ctx segs hok]

/-- C2 witness: the amended mixed-content theorem applied to a concrete
literal-plus-expression template. -/
theorem c2_mixed_content_spec_witness :
    interpolateString ctxCount ⟨tplChars [Seg.lit "n=", Seg.expr " count "]⟩
      = .ok (.vstr "n=42") :=
  (c2_mixed_content_spec ctxCount [Seg.lit "n=", Seg.expr " count "]
    (by
      intro sg hsg
      simp only [List.mem_cons, List.mem_singleton] at hsg
      rcases hsg with rfl | rfl | h
      · exact ⟨by decide, by decide⟩
      · exact ⟨by decide, by decide⟩
      · simp at h) rfl).trans rfl

end Bolt
